import Mathlib

/-!
Verification of the fuzzy answer-matching engine of the advent-calendar
riddle UI: the string normalizer, the Levenshtein distance routine
`getLevenshteinDistance`, the tiered fuzzy matcher `isFuzzyMatch` and the
grading logic of `handleSubmit`.  Strings are modelled as `List Char`.
-/

namespace RiddleModal

/-- The punctuation characters removed by the `replace(/[.,!?:;'"-]/g, '')`
step of `normalize`: `.` `,` `!` `?` `:` `;` `'` `"` `-`.  The apostrophe is
`Char.ofNat 39` and the double quote `Char.ofNat 34`. -/
def punctChars : List Char :=
  ['.', ',', '!', '?', ':', ';', Char.ofNat 39, Char.ofNat 34, '-']

/-- Whitespace characters stripped from the string ends by `trim()`:
space, tab, LF, VT, FF, CR, NBSP, BOM. -/
def wsChars : List Char :=
  [' ', Char.ofNat 9, Char.ofNat 10, Char.ofNat 11, Char.ofNat 12,
   Char.ofNat 13, Char.ofNat 160, Char.ofNat 65279]

/-- Model of `s.trim()`: remove leading and trailing whitespace. -/
def trim (s : List Char) : List Char :=
  ((s.dropWhile (fun c => decide (c ∈ wsChars))).reverse.dropWhile
    (fun c => decide (c ∈ wsChars))).reverse

/-- The `normalize` helper inside `isFuzzyMatch`:
`s.trim().toLowerCase().replace(/[.,!?:;'"-]/g, '')`. -/
def normalize (s : List Char) : List Char :=
  ((trim s).map Char.toLower).filter (fun c => !decide (c ∈ punctChars))

/-- One row of the Levenshtein matrix built by `getLevenshteinDistance`:
`prev` is row `i` as a function of the column index, `bi` is `b.charAt(i)`
(the character compared in row `i+1`), `base` is the first-column seed
`matrix[i+1][0] = i+1`, and the cell recurrence mirrors the source:
minimum of diagonal `prev j + 1`, left `(current row) j + 1`
and top `prev (j+1) + 1`, or the diagonal value when the characters agree. -/
def levRow (a : List Char) (bi : Char) (prev : Nat → Nat) (base : Nat) :
    Nat → Nat
  | 0 => base
  | j + 1 =>
    if bi = a.getD j ' ' then prev j
    else min (prev j + 1) (min (levRow a bi prev base j + 1) (prev (j + 1) + 1))

/-- The dynamic-programming matrix of `getLevenshteinDistance`:
`levMatrix a b i j` is `matrix[i][j]`, the row index ranging over `b` and the
column index over `a`; row 0 is seeded with `matrix[0][j] = j` and column 0
with `matrix[i][0] = i`. -/
def levMatrix (a b : List Char) : Nat → Nat → Nat
  | 0, j => j
  | i + 1, j => levRow a (b.getD i ' ') (levMatrix a b i) (i + 1) j

/-- Embedding of `getLevenshteinDistance` from the source: empty-string
guards (`!a`, `!b`), then the matrix fill, answered at
`matrix[b.length][a.length]`. -/
def getLevenshteinDistance (a b : List Char) : Nat :=
  if a = [] then (if b = [] then 0 else b.length)
  else if b = [] then (if a = [] then 0 else a.length)
  else levMatrix a b b.length a.length

/-- Embedding of `isFuzzyMatch` from the source: raw-emptiness guard,
normalization of both sides, equality fast path, then the length-tiered
tolerance on the Levenshtein distance of the normalized forms. -/
def isFuzzyMatch (user correct : List Char) : Bool :=
  if user = [] ∨ correct = [] then false
  else
    let a := normalize user
    let b := normalize correct
    if a = b then true
    else
      let dist := getLevenshteinDistance a b
      let len := max a.length b.length
      if len ≤ 3 then decide (dist = 0)
      else if len ≤ 7 then decide (dist ≤ 1)
      else decide (dist ≤ 2)

/-- The riddle type tag: free text or multiple choice. -/
inductive RiddleType
  | text
  | choice

/-- The `isCorrect` computation of `handleSubmit`: exact equality for choice
riddles; for text riddles a fuzzy match against the canonical answer and,
failing that, against the non-empty list of accepted alternates when present. -/
def handleSubmitIsCorrect (ty : RiddleType) (userAnswer correctAnswer : List Char)
    (acceptedAnswers : Option (List (List Char))) : Bool :=
  match ty with
  | .choice => decide (userAnswer = correctAnswer)
  | .text =>
    if isFuzzyMatch userAnswer correctAnswer then true
    else
      match acceptedAnswers with
      | some l =>
        if l.length > 0 then l.any (fun ans => isFuzzyMatch userAnswer ans)
        else false
      | none => false

/-- Fuel-indexed reference Levenshtein recurrence; the fuel only drives
structural termination and is irrelevant once it is at least the sum of the
lengths. -/
def levF : Nat → List Char → List Char → Nat
  | _, [], ys => ys.length
  | _, x :: xs, [] => (x :: xs).length
  | 0, _ :: _, _ :: _ => 0
  | f + 1, x :: xs, y :: ys =>
    if x = y then levF f xs ys
    else 1 + min (levF f xs ys) (min (levF f (x :: xs) ys) (levF f xs (y :: ys)))

/-- Reference recursive Levenshtein distance between two character lists. -/
def lev (xs ys : List Char) : Nat :=
  levF (xs.length + ys.length) xs ys

/-- A single character edit: insertion, deletion, or substitution at an
arbitrary position. -/
inductive Edit : List Char → List Char → Prop
  | insert (u v : List Char) (c : Char) : Edit (u ++ v) (u ++ c :: v)
  | delete (u v : List Char) (c : Char) : Edit (u ++ c :: v) (u ++ v)
  | subst (u v : List Char) (c d : Char) : Edit (u ++ c :: v) (u ++ d :: v)

/-- `Transforms a b n`: `a` can be turned into `b` by a sequence of `n`
single-character edits. -/
inductive Transforms : List Char → List Char → Nat → Prop
  | refl (a : List Char) : Transforms a a 0
  | step {a b c : List Char} {n : Nat} :
      Edit a b → Transforms b c n → Transforms a c (n + 1)

theorem levF_nil_left (f : Nat) (ys : List Char) : levF f [] ys = ys.length := by
  cases f <;> rfl

theorem levF_nil_right (f : Nat) (xs : List Char) : levF f xs [] = xs.length := by
  cases f <;> cases xs <;> rfl

theorem levF_succ_cons (f : Nat) (x : Char) (xs : List Char) (y : Char) (ys : List Char) :
    levF (f + 1) (x :: xs) (y :: ys) =
      if x = y then levF f xs ys
      else 1 + min (levF f xs ys) (min (levF f (x :: xs) ys) (levF f xs (y :: ys))) :=
  rfl

theorem levF_congr : ∀ f g : Nat, ∀ xs ys : List Char,
    xs.length + ys.length ≤ f → xs.length + ys.length ≤ g →
    levF f xs ys = levF g xs ys := by
  intro f
  induction f with
  | zero =>
    intro g xs ys hf hg
    cases xs with
    | nil => rw [levF_nil_left, levF_nil_left]
    | cons x xs => simp at hf
  | succ f ih =>
    intro g xs ys hf hg
    cases xs with
    | nil => rw [levF_nil_left, levF_nil_left]
    | cons x xs =>
      cases ys with
      | nil => rw [levF_nil_right, levF_nil_right]
      | cons y ys =>
        cases g with
        | zero => simp at hg
        | succ g =>
          rw [levF_succ_cons, levF_succ_cons]
          simp only [List.length_cons] at hf hg
          rw [ih f xs ys (by omega) (by omega)]
          rw [show levF f xs ys = levF g xs ys from
            ih g xs ys (by omega) (by omega)]
          rw [show levF f (x :: xs) ys = levF g (x :: xs) ys by
            apply ih <;> simp <;> omega]
          rw [show levF f xs (y :: ys) = levF g xs (y :: ys) by
            apply ih <;> simp <;> omega]

theorem lev_nil_left (ys : List Char) : lev [] ys = ys.length := by
  rw [lev, levF_nil_left]

theorem lev_nil_right (xs : List Char) : lev xs [] = xs.length := by
  rw [lev, levF_nil_right]

theorem lev_cons_cons (x : Char) (xs : List Char) (y : Char) (ys : List Char) :
    lev (x :: xs) (y :: ys) =
      if x = y then lev xs ys
      else 1 + min (lev xs ys) (min (lev (x :: xs) ys) (lev xs (y :: ys))) := by
  have h : (x :: xs).length + (y :: ys).length = (xs.length + ys.length + 1) + 1 := by
    simp; omega
  rw [lev, h, levF_succ_cons]
  rw [show levF (xs.length + ys.length + 1) xs ys = lev xs ys from
    levF_congr _ _ _ _ (by omega) (by omega)]
  rw [show levF (xs.length + ys.length + 1) (x :: xs) ys = lev (x :: xs) ys from
    levF_congr _ _ _ _ (by simp only [List.length_cons]; omega)
      (by simp only [List.length_cons]; omega)]
  rw [show levF (xs.length + ys.length + 1) xs (y :: ys) = lev xs (y :: ys) from
    levF_congr _ _ _ _ (by simp only [List.length_cons]; omega)
      (by simp only [List.length_cons]; omega)]

theorem lev_self : ∀ xs : List Char, lev xs xs = 0 := by
  intro xs
  induction xs with
  | nil => rw [lev_nil_left]; rfl
  | cons x xs ih => rw [lev_cons_cons, if_pos rfl, ih]

theorem lev_bounds : ∀ n : Nat, ∀ xs ys : List Char, xs.length + ys.length ≤ n →
    ((∀ x : Char, lev (x :: xs) ys ≤ lev xs ys + 1) ∧
     (∀ y : Char, lev xs (y :: ys) ≤ lev xs ys + 1) ∧
     (∀ x : Char, lev xs ys ≤ lev (x :: xs) ys + 1) ∧
     (∀ y : Char, lev xs ys ≤ lev xs (y :: ys) + 1) ∧
     (∀ x y : Char, lev (x :: xs) ys ≤ lev (y :: xs) ys + 1)) := by
  intro n
  induction n using Nat.strong_induction_on with
  | _ n ih =>
  intro xs ys hn
  have ihs : ∀ xs' ys' : List Char, xs'.length + ys'.length < n →
      ((∀ x : Char, lev (x :: xs') ys' ≤ lev xs' ys' + 1) ∧
       (∀ y : Char, lev xs' (y :: ys') ≤ lev xs' ys' + 1) ∧
       (∀ x : Char, lev xs' ys' ≤ lev (x :: xs') ys' + 1) ∧
       (∀ y : Char, lev xs' ys' ≤ lev xs' (y :: ys') + 1) ∧
       (∀ x y : Char, lev (x :: xs') ys' ≤ lev (y :: xs') ys' + 1)) :=
    fun xs' ys' h => ih _ h xs' ys' le_rfl
  refine ⟨?_, ?_, ?_, ?_, ?_⟩
  · intro x
    cases ys with
    | nil => rw [lev_nil_right, lev_nil_right]; simp
    | cons y ys =>
      rw [lev_cons_cons]
      by_cases hxy : x = y
      · rw [if_pos hxy]
        exact (ihs xs ys (by simp only [List.length_cons] at hn; omega)).2.2.2.1 y
      · rw [if_neg hxy]
        omega
  · intro y
    cases xs with
    | nil => rw [lev_nil_left, lev_nil_left]; simp
    | cons x xs =>
      rw [lev_cons_cons]
      by_cases hxy : x = y
      · rw [if_pos hxy]
        exact (ihs xs ys (by simp only [List.length_cons] at hn; omega)).2.2.1 x
      · rw [if_neg hxy]
        omega
  · intro x
    cases ys with
    | nil => rw [lev_nil_right, lev_nil_right]; simp; omega
    | cons y ys =>
      rw [lev_cons_cons]
      have hlt : xs.length + ys.length < n := by
        simp only [List.length_cons] at hn; omega
      by_cases hxy : x = y
      · rw [if_pos hxy]
        exact (ihs xs ys hlt).2.1 y
      · rw [if_neg hxy]
        have h1 : lev xs (y :: ys) ≤ lev xs ys + 1 := (ihs xs ys hlt).2.1 y
        have h2 : lev xs ys ≤ lev (x :: xs) ys + 1 := (ihs xs ys hlt).2.2.1 x
        omega
  · intro y
    cases xs with
    | nil => rw [lev_nil_left, lev_nil_left]; simp; omega
    | cons x xs =>
      rw [lev_cons_cons]
      have hlt : xs.length + ys.length < n := by
        simp only [List.length_cons] at hn; omega
      by_cases hxy : x = y
      · rw [if_pos hxy]
        exact (ihs xs ys hlt).1 x
      · rw [if_neg hxy]
        have h1 : lev (x :: xs) ys ≤ lev xs ys + 1 := (ihs xs ys hlt).1 x
        have h2 : lev xs ys ≤ lev xs (y :: ys) + 1 := (ihs xs ys hlt).2.2.2.1 y
        omega
  · intro x y
    cases ys with
    | nil => rw [lev_nil_right, lev_nil_right]; simp
    | cons w ws =>
      rw [lev_cons_cons, lev_cons_cons]
      have hlt : xs.length + ws.length < n := by
        simp only [List.length_cons] at hn; omega
      have hB : lev xs ws ≤ lev (y :: xs) ws + 1 := (ihs xs ws hlt).2.2.1 y
      have hBr : lev xs ws ≤ lev xs (w :: ws) + 1 := (ihs xs ws hlt).2.2.2.1 w
      have hS : lev (x :: xs) ws ≤ lev (y :: xs) ws + 1 := (ihs xs ws hlt).2.2.2.2 x y
      by_cases h1 : x = w <;> by_cases h2 : y = w
      · rw [if_pos h1, if_pos h2]; omega
      · rw [if_pos h1, if_neg h2]; omega
      · rw [if_neg h1, if_pos h2]; omega
      · rw [if_neg h1, if_neg h2]; omega

theorem lev_cons_le_left (x : Char) (xs ys : List Char) :
    lev (x :: xs) ys ≤ lev xs ys + 1 :=
  (lev_bounds (xs.length + ys.length) xs ys le_rfl).1 x

theorem lev_cons_le_right (y : Char) (xs ys : List Char) :
    lev xs (y :: ys) ≤ lev xs ys + 1 :=
  (lev_bounds (xs.length + ys.length) xs ys le_rfl).2.1 y

theorem lev_le_cons_left (x : Char) (xs ys : List Char) :
    lev xs ys ≤ lev (x :: xs) ys + 1 :=
  (lev_bounds (xs.length + ys.length) xs ys le_rfl).2.2.1 x

theorem lev_le_cons_right (y : Char) (xs ys : List Char) :
    lev xs ys ≤ lev xs (y :: ys) + 1 :=
  (lev_bounds (xs.length + ys.length) xs ys le_rfl).2.2.2.1 y

theorem lev_subst_le (x y : Char) (xs ys : List Char) :
    lev (x :: xs) ys ≤ lev (y :: xs) ys + 1 :=
  (lev_bounds (xs.length + ys.length) xs ys le_rfl).2.2.2.2 x y

theorem lev_symm_aux : ∀ n : Nat, ∀ xs ys : List Char, xs.length + ys.length ≤ n →
    lev xs ys = lev ys xs := by
  intro n
  induction n using Nat.strong_induction_on with
  | _ n ih =>
  intro xs ys hn
  cases xs with
  | nil => rw [lev_nil_left, lev_nil_right]
  | cons x xs =>
    cases ys with
    | nil => rw [lev_nil_right, lev_nil_left]
    | cons y ys =>
      simp only [List.length_cons] at hn
      rw [lev_cons_cons, lev_cons_cons]
      have h1 : lev xs ys = lev ys xs :=
        ih (xs.length + ys.length) (by omega) xs ys le_rfl
      have h2 : lev (x :: xs) ys = lev ys (x :: xs) :=
        ih ((x :: xs).length + ys.length) (by simp; omega) (x :: xs) ys le_rfl
      have h3 : lev xs (y :: ys) = lev (y :: ys) xs :=
        ih (xs.length + (y :: ys).length) (by simp; omega) xs (y :: ys) le_rfl
      by_cases hxy : x = y
      · rw [if_pos hxy, if_pos hxy.symm, h1]
      · rw [if_neg hxy, if_neg (fun h => hxy h.symm), h1, h2, h3]
        omega

theorem lev_symm (xs ys : List Char) : lev xs ys = lev ys xs :=
  lev_symm_aux (xs.length + ys.length) xs ys le_rfl

theorem lev_delete_le : ∀ n : Nat, ∀ u c : List Char, u.length + c.length ≤ n →
    ∀ (x : Char) (v : List Char), lev (u ++ x :: v) c ≤ lev (u ++ v) c + 1 := by
  intro n
  induction n using Nat.strong_induction_on with
  | _ n ih =>
  intro u c hn x v
  cases u with
  | nil => simpa using lev_cons_le_left x v c
  | cons z u =>
    cases c with
    | nil =>
      rw [lev_nil_right, lev_nil_right]
      simp only [List.length_append, List.length_cons]
      omega
    | cons w ws =>
      simp only [List.length_cons] at hn
      simp only [List.cons_append]
      rw [lev_cons_cons, lev_cons_cons]
      have h1 : lev (u ++ x :: v) ws ≤ lev (u ++ v) ws + 1 :=
        ih (u.length + ws.length) (by omega) u ws le_rfl x v
      have h2 : lev ((z :: u) ++ x :: v) ws ≤ lev ((z :: u) ++ v) ws + 1 :=
        ih ((z :: u).length + ws.length) (by simp; omega) (z :: u) ws le_rfl x v
      have h3 : lev (u ++ x :: v) (w :: ws) ≤ lev (u ++ v) (w :: ws) + 1 :=
        ih (u.length + (w :: ws).length) (by simp; omega) u (w :: ws) le_rfl x v
      simp only [List.cons_append] at h2
      by_cases hzw : z = w
      · rw [if_pos hzw, if_pos hzw]; omega
      · rw [if_neg hzw, if_neg hzw]; omega

theorem lev_insert_le : ∀ n : Nat, ∀ u c : List Char, u.length + c.length ≤ n →
    ∀ (x : Char) (v : List Char), lev (u ++ v) c ≤ lev (u ++ x :: v) c + 1 := by
  intro n
  induction n using Nat.strong_induction_on with
  | _ n ih =>
  intro u c hn x v
  cases u with
  | nil => simpa using lev_le_cons_left x v c
  | cons z u =>
    cases c with
    | nil =>
      rw [lev_nil_right, lev_nil_right]
      simp only [List.length_append, List.length_cons]
      omega
    | cons w ws =>
      simp only [List.length_cons] at hn
      simp only [List.cons_append]
      rw [lev_cons_cons, lev_cons_cons]
      have h1 : lev (u ++ v) ws ≤ lev (u ++ x :: v) ws + 1 :=
        ih (u.length + ws.length) (by omega) u ws le_rfl x v
      have h2 : lev ((z :: u) ++ v) ws ≤ lev ((z :: u) ++ x :: v) ws + 1 :=
        ih ((z :: u).length + ws.length) (by simp; omega) (z :: u) ws le_rfl x v
      have h3 : lev (u ++ v) (w :: ws) ≤ lev (u ++ x :: v) (w :: ws) + 1 :=
        ih (u.length + (w :: ws).length) (by simp; omega) u (w :: ws) le_rfl x v
      simp only [List.cons_append] at h2
      by_cases hzw : z = w
      · rw [if_pos hzw, if_pos hzw]; omega
      · rw [if_neg hzw, if_neg hzw]; omega

theorem lev_subst_mid_le : ∀ n : Nat, ∀ u c : List Char, u.length + c.length ≤ n →
    ∀ (x y : Char) (v : List Char), lev (u ++ x :: v) c ≤ lev (u ++ y :: v) c + 1 := by
  intro n
  induction n using Nat.strong_induction_on with
  | _ n ih =>
  intro u c hn x y v
  cases u with
  | nil => simpa using lev_subst_le x y v c
  | cons z u =>
    cases c with
    | nil =>
      rw [lev_nil_right, lev_nil_right]
      simp only [List.length_append, List.length_cons]
      omega
    | cons w ws =>
      simp only [List.length_cons] at hn
      simp only [List.cons_append]
      rw [lev_cons_cons, lev_cons_cons]
      have h1 : lev (u ++ x :: v) ws ≤ lev (u ++ y :: v) ws + 1 :=
        ih (u.length + ws.length) (by omega) u ws le_rfl x y v
      have h2 : lev ((z :: u) ++ x :: v) ws ≤ lev ((z :: u) ++ y :: v) ws + 1 :=
        ih ((z :: u).length + ws.length) (by simp; omega) (z :: u) ws le_rfl x y v
      have h3 : lev (u ++ x :: v) (w :: ws) ≤ lev (u ++ y :: v) (w :: ws) + 1 :=
        ih (u.length + (w :: ws).length) (by simp; omega) u (w :: ws) le_rfl x y v
      simp only [List.cons_append] at h2
      by_cases hzw : z = w
      · rw [if_pos hzw, if_pos hzw]; omega
      · rw [if_neg hzw, if_neg hzw]; omega

theorem edit_lev_le {a b : List Char} (h : Edit a b) (zs : List Char) :
    lev a zs ≤ lev b zs + 1 := by
  cases h with
  | insert u v ch => exact lev_insert_le (u.length + zs.length) u zs le_rfl ch v
  | delete u v ch => exact lev_delete_le (u.length + zs.length) u zs le_rfl ch v
  | subst u v ch d => exact lev_subst_mid_le (u.length + zs.length) u zs le_rfl ch d v

theorem transforms_lev_le {a b : List Char} {n : Nat} (h : Transforms a b n) :
    lev a b ≤ n := by
  induction h with
  | refl a => rw [lev_self]
  | step e ht ih =>
    rename_i a' b' c' n'
    have h2 := edit_lev_le e c'
    omega

theorem edit_cons {a b : List Char} (x : Char) (h : Edit a b) :
    Edit (x :: a) (x :: b) := by
  cases h with
  | insert u v ch => exact Edit.insert (x :: u) v ch
  | delete u v ch => exact Edit.delete (x :: u) v ch
  | subst u v ch d => exact Edit.subst (x :: u) v ch d

theorem transforms_cons {a b : List Char} {n : Nat} (x : Char)
    (h : Transforms a b n) : Transforms (x :: a) (x :: b) n := by
  induction h with
  | refl a => exact .refl (x :: a)
  | step e ht ih => exact .step (edit_cons x e) ih

theorem transforms_from_nil (ys : List Char) : Transforms [] ys ys.length := by
  induction ys with
  | nil => exact .refl []
  | cons y ys ih => exact .step (Edit.insert [] [] y) (transforms_cons y ih)

theorem transforms_to_nil (xs : List Char) : Transforms xs [] xs.length := by
  induction xs with
  | nil => exact .refl []
  | cons x xs ih => exact .step (Edit.delete [] xs x) ih

theorem transforms_lev_aux : ∀ n : Nat, ∀ xs ys : List Char,
    xs.length + ys.length ≤ n → Transforms xs ys (lev xs ys) := by
  intro n
  induction n using Nat.strong_induction_on with
  | _ n ih =>
  intro xs ys hn
  cases xs with
  | nil => rw [lev_nil_left]; exact transforms_from_nil ys
  | cons x xs =>
    cases ys with
    | nil => rw [lev_nil_right]; exact transforms_to_nil (x :: xs)
    | cons y ys =>
      simp only [List.length_cons] at hn
      rw [lev_cons_cons]
      have t1 : Transforms xs ys (lev xs ys) :=
        ih (xs.length + ys.length) (by omega) xs ys le_rfl
      have t2 : Transforms (x :: xs) ys (lev (x :: xs) ys) :=
        ih ((x :: xs).length + ys.length) (by simp; omega) (x :: xs) ys le_rfl
      have t3 : Transforms xs (y :: ys) (lev xs (y :: ys)) :=
        ih (xs.length + (y :: ys).length) (by simp; omega) xs (y :: ys) le_rfl
      by_cases hxy : x = y
      · rw [if_pos hxy]; subst hxy; exact transforms_cons x t1
      · rw [if_neg hxy]
        have hmin : min (lev xs ys) (min (lev (x :: xs) ys) (lev xs (y :: ys))) = lev xs ys ∨
            min (lev xs ys) (min (lev (x :: xs) ys) (lev xs (y :: ys))) = lev (x :: xs) ys ∨
            min (lev xs ys) (min (lev (x :: xs) ys) (lev xs (y :: ys))) = lev xs (y :: ys) := by
          omega
        rcases hmin with h | h | h <;> rw [h, Nat.add_comm 1]
        · exact .step (Edit.subst [] xs x y) (transforms_cons y t1)
        · exact .step (Edit.insert [] (x :: xs) y) (transforms_cons y t2)
        · exact .step (Edit.delete [] xs x) t3

theorem transforms_lev (xs ys : List Char) : Transforms xs ys (lev xs ys) :=
  transforms_lev_aux (xs.length + ys.length) xs ys le_rfl

theorem lev_eq_sInf (xs ys : List Char) :
    lev xs ys = sInf {n | Transforms xs ys n} := by
  apply le_antisymm
  · have hne : {n | Transforms xs ys n}.Nonempty := ⟨lev xs ys, transforms_lev xs ys⟩
    exact transforms_lev_le (Nat.sInf_mem hne)
  · exact Nat.sInf_le (transforms_lev xs ys)

theorem transforms_trans : ∀ {a b : List Char} {m : Nat}, Transforms a b m →
    ∀ {c : List Char} {n : Nat}, Transforms b c n → Transforms a c (m + n) := by
  intro a b m h1
  induction h1 with
  | refl a => intro c n h2; rw [Nat.zero_add]; exact h2
  | step e ht ih =>
    intro c n h2
    rw [show ∀ k : Nat, k + 1 + n = k + n + 1 from fun k => by omega]
    exact .step e (ih h2)

theorem lev_triangle (a b c : List Char) : lev a c ≤ lev a b + lev b c :=
  transforms_lev_le (transforms_trans (transforms_lev a b) (transforms_lev b c))

theorem edit_reverse {a b : List Char} (h : Edit a b) : Edit a.reverse b.reverse := by
  cases h with
  | insert u v ch =>
    have h2 := Edit.insert v.reverse u.reverse ch
    simpa using h2
  | delete u v ch =>
    have h2 := Edit.delete v.reverse u.reverse ch
    simpa using h2
  | subst u v ch d =>
    have h2 := Edit.subst v.reverse u.reverse ch d
    simpa using h2

theorem transforms_reverse {a b : List Char} {n : Nat} (h : Transforms a b n) :
    Transforms a.reverse b.reverse n := by
  induction h with
  | refl a => exact .refl _
  | step e ht ih => exact .step (edit_reverse e) ih

theorem lev_reverse (xs ys : List Char) : lev xs.reverse ys.reverse = lev xs ys := by
  rw [lev_eq_sInf, lev_eq_sInf]
  congr 1
  ext n
  simp only [Set.mem_setOf_eq]
  constructor
  · intro h
    have h2 := transforms_reverse h
    simpa using h2
  · intro h
    exact transforms_reverse h

theorem lev_snoc_snoc (x y : Char) (xs ys : List Char) :
    lev (xs ++ [x]) (ys ++ [y]) =
      if x = y then lev xs ys
      else 1 + min (lev xs ys) (min (lev (xs ++ [x]) ys) (lev xs (ys ++ [y]))) := by
  have e1 : lev (xs ++ [x]) (ys ++ [y]) = lev (x :: xs.reverse) (y :: ys.reverse) := by
    rw [← lev_reverse (xs ++ [x]) (ys ++ [y])]
    simp
  have e2 : lev (x :: xs.reverse) ys.reverse = lev (xs ++ [x]) ys := by
    rw [← lev_reverse (xs ++ [x]) ys]
    simp
  have e3 : lev xs.reverse (y :: ys.reverse) = lev xs (ys ++ [y]) := by
    rw [← lev_reverse xs (ys ++ [y])]
    simp
  rw [e1, lev_cons_cons, lev_reverse, e2, e3]

theorem levMatrix_zero_left (a b : List Char) (j : Nat) : levMatrix a b 0 j = j :=
  rfl

theorem levMatrix_succ_zero (a b : List Char) (i : Nat) :
    levMatrix a b (i + 1) 0 = i + 1 :=
  rfl

theorem levMatrix_succ_succ (a b : List Char) (i j : Nat) :
    levMatrix a b (i + 1) (j + 1) =
      if b.getD i ' ' = a.getD j ' ' then levMatrix a b i j
      else min (levMatrix a b i j + 1)
        (min (levMatrix a b (i + 1) j + 1) (levMatrix a b i (j + 1) + 1)) :=
  rfl

theorem take_succ_getD {l : List Char} {j : Nat} (h : j < l.length) :
    l.take (j + 1) = l.take j ++ [l.getD j ' '] := by
  rw [List.take_succ, List.getElem?_eq_getElem h, List.getD_eq_getElem?_getD,
    List.getElem?_eq_getElem h, Option.getD_some]
  rfl

theorem levMatrix_correct (a b : List Char) : ∀ n i j : Nat, i + j ≤ n →
    i ≤ b.length → j ≤ a.length →
    levMatrix a b i j = lev (a.take j) (b.take i) := by
  intro n
  induction n using Nat.strong_induction_on with
  | _ n ih =>
  intro i j hn hi hj
  cases i with
  | zero =>
    rw [levMatrix_zero_left, show b.take 0 = [] from rfl, lev_nil_right,
      List.length_take]
    omega
  | succ i =>
    cases j with
    | zero =>
      rw [levMatrix_succ_zero, show a.take 0 = [] from rfl, lev_nil_left,
        List.length_take]
      omega
    | succ j =>
      have hia : i < b.length := by omega
      have hja : j < a.length := by omega
      rw [levMatrix_succ_succ, take_succ_getD hja, take_succ_getD hia,
        lev_snoc_snoc]
      have e1 : levMatrix a b i j = lev (a.take j) (b.take i) :=
        ih (i + j) (by omega) i j le_rfl (by omega) (by omega)
      have e2 : levMatrix a b (i + 1) j = lev (a.take j) (b.take (i + 1)) :=
        ih (i + 1 + j) (by omega) (i + 1) j le_rfl (by omega) (by omega)
      have e3 : levMatrix a b i (j + 1) = lev (a.take (j + 1)) (b.take i) :=
        ih (i + (j + 1)) (by omega) i (j + 1) le_rfl (by omega) (by omega)
      rw [take_succ_getD hia] at e2
      rw [take_succ_getD hja] at e3
      by_cases hc : b.getD i ' ' = a.getD j ' '
      · rw [if_pos hc, if_pos hc.symm, e1]
      · rw [if_neg hc, if_neg (fun hh => hc hh.symm), e1, e2, e3]
        omega

theorem getLev_eq_lev (a b : List Char) : getLevenshteinDistance a b = lev a b := by
  rw [getLevenshteinDistance]
  by_cases ha : a = []
  · rw [if_pos ha]
    by_cases hb : b = []
    · rw [if_pos hb]
      subst ha; subst hb
      rw [lev_nil_left]
      rfl
    · rw [if_neg hb]
      subst ha
      rw [lev_nil_left]
  · rw [if_neg ha]
    by_cases hb : b = []
    · rw [if_pos hb, if_neg ha]
      subst hb
      rw [lev_nil_right]
    · rw [if_neg hb]
      have h := levMatrix_correct a b (b.length + a.length) b.length a.length
        le_rfl le_rfl le_rfl
      rw [h, List.take_length, List.take_length]

theorem char_isUpper_iff (c : Char) :
    c.isUpper = true ↔ 65 ≤ c.toNat ∧ c.toNat ≤ 90 := by
  simp only [Char.isUpper, Bool.and_eq_true, decide_eq_true_eq, GE.ge,
    UInt32.le_def, BitVec.le_def]
  exact Iff.rfl

theorem char_toLower_eq_self {c : Char} (h : ¬(65 ≤ c.toNat ∧ c.toNat ≤ 90)) :
    c.toLower = c := by
  rw [Char.toLower]
  exact if_neg h

theorem char_toLower_toNat {c : Char} (h1 : 65 ≤ c.toNat) (h2 : c.toNat ≤ 90) :
    c.toLower.toNat = c.toNat + 32 := by
  rw [Char.toLower]
  simp only [if_pos (And.intro h1 h2)]
  have hv : (c.toNat + 32).isValidChar := Or.inl (by omega)
  rw [Char.ofNat, dif_pos hv]
  rfl

theorem char_isUpper_toLower (c : Char) : c.toLower.isUpper = false := by
  by_cases h : 65 ≤ c.toNat ∧ c.toNat ≤ 90
  · have ht := char_toLower_toNat h.1 h.2
    rw [Bool.eq_false_iff]
    intro hu
    rw [char_isUpper_iff] at hu
    omega
  · rw [char_toLower_eq_self h, Bool.eq_false_iff]
    intro hu
    rw [char_isUpper_iff] at hu
    exact h hu

theorem char_toLower_toLower (c : Char) : c.toLower.toLower = c.toLower := by
  apply char_toLower_eq_self
  intro hcon
  have h2 : c.toLower.isUpper = true := (char_isUpper_iff c.toLower).mpr hcon
  rw [char_isUpper_toLower] at h2
  exact Bool.false_ne_true h2

theorem trim_sublist (s : List Char) : List.Sublist (trim s) s := by
  have h1 : List.Sublist (s.dropWhile (fun c => decide (c ∈ wsChars))) s :=
    List.dropWhile_sublist _
  have h2 : List.Sublist
      ((s.dropWhile (fun c => decide (c ∈ wsChars))).reverse.dropWhile
        (fun c => decide (c ∈ wsChars))).reverse
      (s.dropWhile (fun c => decide (c ∈ wsChars))).reverse.reverse :=
    (List.dropWhile_sublist _).reverse
  rw [List.reverse_reverse] at h2
  exact h2.trans h1

theorem normalize_mem_props (s : List Char) :
    ∀ c ∈ normalize s, c.toLower = c ∧ c.isUpper = false ∧ c ∉ punctChars := by
  intro c hc
  rw [normalize, List.mem_filter] at hc
  obtain ⟨hmem, hp⟩ := hc
  rw [List.mem_map] at hmem
  obtain ⟨c0, hc0, rfl⟩ := hmem
  refine ⟨char_toLower_toLower c0, char_isUpper_toLower c0, ?_⟩
  simpa using hp

theorem normalize_eq_trim_of_fixed {t : List Char}
    (hlow : ∀ c ∈ t, c.toLower = c) (hpun : ∀ c ∈ t, c ∉ punctChars) :
    normalize t = trim t := by
  rw [normalize]
  have hmap : (trim t).map Char.toLower = trim t := by
    have hfix : ∀ c ∈ trim t, c.toLower = c :=
      fun c hc => hlow c ((trim_sublist t).subset hc)
    calc (trim t).map Char.toLower = (trim t).map id :=
          List.map_congr_left (fun a ha => hfix a ha)
      _ = trim t := List.map_id _
  rw [hmap]
  apply List.filter_eq_self.mpr
  intro a ha
  have hnp := hpun a ((trim_sublist t).subset ha)
  simpa using hnp

theorem normalize_normalize (s : List Char) :
    normalize (normalize s) = trim (normalize s) :=
  normalize_eq_trim_of_fixed
    (fun c hc => (normalize_mem_props s c hc).1)
    (fun c hc => (normalize_mem_props s c hc).2.2)

/-- Claim C2: getLevenshteinDistance computes the Levenshtein edit distance,
the minimum number of single-character insertions, deletions, or substitutions
that transform one string into the other. -/
theorem getLevenshteinDistance_eq_editDistance (a b : List Char) :
    getLevenshteinDistance a b = sInf {n | Transforms a b n} := by
  rw [getLev_eq_lev, lev_eq_sInf]

/-- Claim C8: the edit distance is symmetric. -/
theorem getLevenshteinDistance_symm (a b : List Char) :
    getLevenshteinDistance a b = getLevenshteinDistance b a := by
  rw [getLev_eq_lev, getLev_eq_lev, lev_symm]

/-- Claim C9: the edit distance satisfies the triangle inequality. -/
theorem getLevenshteinDistance_triangle (a b c : List Char) :
    getLevenshteinDistance a c ≤
      getLevenshteinDistance a b + getLevenshteinDistance b c := by
  rw [getLev_eq_lev, getLev_eq_lev, getLev_eq_lev]
  exact lev_triangle a b c

/-- Claim C7: choice-type riddles are graded by exact string equality between
the submission and the canonical answer, with no normalization and no fuzzy
tolerance. -/
theorem handleSubmit_choice_exact (sub canon : List Char)
    (alts : Option (List (List Char))) :
    handleSubmitIsCorrect RiddleType.choice sub canon alts = true ↔ sub = canon := by
  simp [handleSubmitIsCorrect]

/-- Claim C6: for text-type riddles the verdict is true exactly when the
submission fuzzy-matches the canonical answer or some alternate in the
(possibly absent, treated as empty) accepted-answer collection — a pure
disjunction, independent of the order of checking. -/
theorem handleSubmit_text_disjunction (sub canon : List Char)
    (alts : Option (List (List Char))) :
    handleSubmitIsCorrect RiddleType.text sub canon alts = true ↔
      (isFuzzyMatch sub canon = true ∨
        ∃ alt ∈ alts.getD [], isFuzzyMatch sub alt = true) := by
  by_cases h : isFuzzyMatch sub canon = true
  · simp [handleSubmitIsCorrect, h]
  · rw [Bool.not_eq_true] at h
    cases alts with
    | none => simp [handleSubmitIsCorrect, h]
    | some l =>
      cases l with
      | nil => simp [handleSubmitIsCorrect, h]
      | cons a as => simp [handleSubmitIsCorrect, h, List.any_eq_true]

/-- Claim C10: isFuzzyMatch is symmetric in its two arguments. -/
theorem isFuzzyMatch_symm (x y : List Char) :
    isFuzzyMatch x y = isFuzzyMatch y x := by
  simp only [isFuzzyMatch, getLev_eq_lev]
  rw [if_congr (show (x = [] ∨ y = []) ↔ (y = [] ∨ x = []) from
    Iff.intro Or.symm Or.symm) rfl rfl]
  rw [if_congr (show (normalize x = normalize y) ↔ (normalize y = normalize x)
    from Iff.intro Eq.symm Eq.symm) rfl rfl]
  rw [lev_symm (normalize x) (normalize y),
    Nat.max_comm (normalize x).length (normalize y).length]

/-- Claim C1: when both normalized forms are non-empty, isFuzzyMatch returns
true exactly when the Levenshtein distance between the normalized forms is
within the tolerance of the tier selected by the maximum normalized length:
distance 0 for length at most 3, at most 1 for length 4 to 7, at most 2
beyond. -/
theorem isFuzzyMatch_tier_policy (u c : List Char)
    (hu : normalize u ≠ []) (hc : normalize c ≠ []) :
    isFuzzyMatch u c = true ↔
      (if max (normalize u).length (normalize c).length ≤ 3 then
        sInf {n | Transforms (normalize u) (normalize c) n} = 0
      else if max (normalize u).length (normalize c).length ≤ 7 then
        sInf {n | Transforms (normalize u) (normalize c) n} ≤ 1
      else sInf {n | Transforms (normalize u) (normalize c) n} ≤ 2) := by
  have hu0 : u ≠ [] := fun h => hu (by rw [h]; rfl)
  have hc0 : c ≠ [] := fun h => hc (by rw [h]; rfl)
  have hor : ¬(u = [] ∨ c = []) := fun h => h.elim hu0 hc0
  rw [← lev_eq_sInf]
  simp only [isFuzzyMatch, getLev_eq_lev]
  rw [if_neg hor]
  by_cases hab : normalize u = normalize c
  · rw [if_pos hab, hab, lev_self]
    constructor
    · intro _
      split_ifs <;> omega
    · intro _
      rfl
  · rw [if_neg hab]
    split_ifs <;> simp

/-- Claim C1 witness: on the 4-character pair abcd and abcx both hypotheses
hold, isFuzzyMatch is true, and the tier condition follows. -/
theorem isFuzzyMatch_tier_policy_witness :
    if max (normalize ['a', 'b', 'c', 'd']).length
        (normalize ['a', 'b', 'c', 'x']).length ≤ 3 then
      sInf {n | Transforms (normalize ['a', 'b', 'c', 'd'])
        (normalize ['a', 'b', 'c', 'x']) n} = 0
    else if max (normalize ['a', 'b', 'c', 'd']).length
        (normalize ['a', 'b', 'c', 'x']).length ≤ 7 then
      sInf {n | Transforms (normalize ['a', 'b', 'c', 'd'])
        (normalize ['a', 'b', 'c', 'x']) n} ≤ 1
    else sInf {n | Transforms (normalize ['a', 'b', 'c', 'd'])
        (normalize ['a', 'b', 'c', 'x']) n} ≤ 2 :=
  (isFuzzyMatch_tier_policy ['a', 'b', 'c', 'd'] ['a', 'b', 'c', 'x']
    (by decide) (by decide)).mp (by decide)

/-- Claim C3 counterexample: the raw inputs consisting of a single space and a
single period are non-empty, both normalize to the empty string, yet
isFuzzyMatch returns true via the equality fast path — contradicting the claim
that emptiness after normalization forces a false result. -/
theorem isFuzzyMatch_empty_counterexample :
    normalize [' '] = [] ∧ normalize ['.'] = [] ∧
      isFuzzyMatch [' '] ['.'] = true := by
  decide

/-- Claim C3 amended: a raw-empty input always yields false, and an input
that normalizes to empty while the other side does not also yields false; but
when both raw inputs are non-empty and both normalize to the empty string,
isFuzzyMatch returns true via the equality fast path (the emptiness guard
inspects the raw strings, not the normalized forms). -/
theorem isFuzzyMatch_empty_amended (u c : List Char) :
    ((u = [] ∨ c = []) → isFuzzyMatch u c = false) ∧
    (((normalize u = [] ∧ normalize c ≠ []) ∨
      (normalize u ≠ [] ∧ normalize c = [])) → isFuzzyMatch u c = false) ∧
    (u ≠ [] → c ≠ [] → normalize u = [] → normalize c = [] →
      isFuzzyMatch u c = true) := by
  refine ⟨?_, ?_, ?_⟩
  · intro h
    simp only [isFuzzyMatch]
    rw [if_pos h]
  · intro h
    by_cases hu0 : u = []
    · simp only [isFuzzyMatch]
      rw [if_pos (Or.inl hu0)]
    by_cases hc0 : c = []
    · simp only [isFuzzyMatch]
      rw [if_pos (Or.inr hc0)]
    have hor : ¬(u = [] ∨ c = []) := fun hh => hh.elim hu0 hc0
    simp only [isFuzzyMatch, getLev_eq_lev]
    rw [if_neg hor]
    rcases h with ⟨ha, hb⟩ | ⟨ha, hb⟩
    · have hab : normalize u ≠ normalize c := by
        rw [ha]
        exact fun hh => hb hh.symm
      rw [if_neg hab, ha, lev_nil_left]
      have hlen : 1 ≤ (normalize c).length := List.length_pos.mpr hb
      simp only [List.length_nil, Nat.zero_max]
      split_ifs with h1 h2
      · simp only [decide_eq_false_iff_not]
        omega
      · simp only [decide_eq_false_iff_not]
        omega
      · simp only [decide_eq_false_iff_not]
        omega
    · have hab : normalize u ≠ normalize c := by
        rw [hb]
        exact ha
      rw [if_neg hab, hb, lev_nil_right]
      have hlen : 1 ≤ (normalize u).length := List.length_pos.mpr ha
      simp only [List.length_nil, Nat.max_zero]
      split_ifs with h1 h2
      · simp only [decide_eq_false_iff_not]
        omega
      · simp only [decide_eq_false_iff_not]
        omega
      · simp only [decide_eq_false_iff_not]
        omega
  · intro hu0 hc0 ha hb
    have hor : ¬(u = [] ∨ c = []) := fun hh => hh.elim hu0 hc0
    simp only [isFuzzyMatch]
    rw [if_neg hor, if_pos (ha.trans hb.symm)]

/-- Claim C3 amended witness: the empty submission never matches, a
whitespace-only submission does not match a real answer, and two punctuation
or whitespace-only inputs match each other. -/
theorem isFuzzyMatch_empty_amended_witness :
    isFuzzyMatch [] ['j', 'a'] = false ∧
      isFuzzyMatch [' '] ['j', 'a'] = false ∧
      isFuzzyMatch [' '] ['.'] = true :=
  ⟨(isFuzzyMatch_empty_amended [] ['j', 'a']).1 (Or.inl rfl),
   (isFuzzyMatch_empty_amended [' '] ['j', 'a']).2.1
     (Or.inl ⟨by decide, by decide⟩),
   (isFuzzyMatch_empty_amended [' '] ['.']).2.2
     (by decide) (by decide) (by decide) (by decide)⟩

/-- Claim C4 counterexample: normalizing the three-character input a-space-dot
yields the two-character string a-space, whose last character is whitespace —
the normalized form can retain trailing whitespace exposed by punctuation
removal, because trimming happens before the punctuation strip. -/
theorem normalize_trailing_ws_counterexample :
    normalize ['a', ' ', '.'] = ['a', ' '] ∧ (' ' ∈ wsChars) ∧
      trim (normalize ['a', ' ', '.']) ≠ normalize ['a', ' ', '.'] := by
  decide

/-- Claim C4 amended: the normalized form contains no uppercase letters and no
character of the punctuation-removal set, and it is an in-order sublist of the
lowercased input, so nothing beyond trimmed edge whitespace and the listed
punctuation is removed; it may however retain leading or trailing whitespace
uncovered by punctuation removal. -/
theorem normalize_amended (s : List Char) :
    (∀ c ∈ normalize s, c.isUpper = false ∧ c ∉ punctChars) ∧
    List.Sublist (normalize s) (s.map Char.toLower) := by
  constructor
  · intro c hc
    exact ⟨(normalize_mem_props s c hc).2.1, (normalize_mem_props s c hc).2.2⟩
  · unfold normalize
    exact (List.filter_sublist _).trans
      (List.Sublist.map Char.toLower (trim_sublist s))

/-- Claim C4 amended witness: on the input Ho! the character h of the
normalized form is neither uppercase nor punctuation, and the normalized form
is a sublist of the lowercased input. -/
theorem normalize_amended_witness :
    (Char.isUpper 'h' = false ∧ 'h' ∉ punctChars) ∧
      List.Sublist (normalize ['H', 'o', '!']) (['H', 'o', '!'].map Char.toLower) :=
  ⟨(normalize_amended ['H', 'o', '!']).1 'h' (by decide),
   (normalize_amended ['H', 'o', '!']).2⟩

/-- Claim C5 counterexample: normalization is not idempotent on the input
a-space-dot: one application yields a-space, a second application trims the
exposed trailing space and yields just a. -/
theorem normalize_not_idempotent_counterexample :
    normalize (normalize ['a', ' ', '.']) ≠ normalize ['a', ' ', '.'] ∧
      normalize ['a', ' ', '.'] = ['a', ' '] ∧
      normalize ['a', ' '] = ['a'] := by
  decide

/-- Claim C5 amended: a second normalization pass only trims the whitespace
exposed at the ends by punctuation removal; in particular normalization is
idempotent on every input whose normalized form carries no leading or trailing
whitespace. -/
theorem normalize_idempotent_amended (s : List Char) :
    normalize (normalize s) = trim (normalize s) ∧
    (trim (normalize s) = normalize s →
      normalize (normalize s) = normalize s) :=
  ⟨normalize_normalize s, fun ht => (normalize_normalize s).trans ht⟩

/-- Claim C5 amended witness: instantiated at the counterexample input and at
the input ho, whose normalized form is whitespace-free. -/
theorem normalize_idempotent_amended_witness :
    normalize (normalize ['a', ' ', '.']) = trim (normalize ['a', ' ', '.']) ∧
      normalize (normalize ['h', 'o']) = normalize ['h', 'o'] :=
  ⟨(normalize_idempotent_amended ['a', ' ', '.']).1,
   (normalize_idempotent_amended ['h', 'o']).2 (by decide)⟩

end RiddleModal
